import Mathlib

/-!
Verification of the reusable core of an Advent-of-Code repository: the
`Bitmap` 2-D grid component (`src/bitmap.rs`) and the generic `AStar`
pathfinder (`src/astar.rs`).

Modelling conventions (shallow embedding of the Rust source):
* Machine integers are modelled as `Nat`/`Int` with explicit wrap-around
  (`% 2^32`, two's complement for `i32`, `% 2^64` for `usize`), i.e. the
  release-profile semantics of Rust integer arithmetic; `as` casts are
  modelled by the same wrapping/sign-reinterpreting functions Rust defines
  for them.
* A Rust `Vec` indexing that can panic is modelled with `List.get?`
  (`none` models the panic); fallible functions return `Option`/`Except`.
* `f32` cost values of the pathfinder are modelled as `ℚ`; every concrete
  instance in this file uses small integral values, on which `f32`
  arithmetic is exact.  The `g_score.get(..).unwrap_or(f32::INFINITY)`
  comparison is modelled by treating a missing entry as "tentative score
  is better", which agrees with `t < ∞` for every finite `t`.
* Rust `HashMap`s keyed by nodes are modelled as association lists with
  first-match lookup and prepend-insert (observationally the overwrite
  semantics of `HashMap::insert`); the `HashSet` frontier is modelled as a
  duplicate-free list, and `open_set.iter().min()` as the minimum of that
  list under the node's linear order, which is exactly the value Rust
  computes regardless of hash-iteration order (proved order-independent
  below).
* Loops that Rust runs unboundedly are given explicit fuel; the outer
  `Option` layer of `find_path` distinguishes "terminated with this
  result" (`some`) from "fuel exhausted or panicked" (`none`).
-/

/-! ## Machine-integer helpers -/

/-- The constant `2^32`, cardinality of `u32`. -/
def u32Card : Nat := 4294967296

/-- The constant `2^31`, i.e. `i32::MAX + 1`. -/
def i32Half : Nat := 2147483648

/-- The constant `2^64`, cardinality of `usize`. -/
def usizeCard : Nat := 18446744073709551616

/-- Rust cast `u32 as i32`: reinterpret the bit pattern (two's complement). -/
def u32AsI32 (n : Nat) : Int :=
  if n < i32Half then (n : Int) else (n : Int) - (u32Card : Int)

/-- Wrap-around of `i32` arithmetic: the representative of `z` in
`[-2^31, 2^31)`. -/
def i32Wrap (z : Int) : Int :=
  (z + (i32Half : Int)) % (u32Card : Int) - (i32Half : Int)

/-- Rust cast `i32 as usize`: sign-extend to 64 bits and reinterpret. -/
def i32AsUsize (z : Int) : Nat :=
  (z % (usizeCard : Int)).toNat

/-! ## The Bitmap component (`src/bitmap.rs`) -/

/-- The error returned by `Bitmap::set` on an out-of-bounds write. -/
structure OutOfBoundsError : Type where
deriving DecidableEq

/-- Struct `Bitmap<T>` of `src/bitmap.rs`: dense storage `elements`, `u32`
dimensions (kept as `Nat < 2^32`), and the `out_of_bounds` sentinel. -/
structure Bitmap (T : Type) where
  elements : List T
  width : Nat
  height : Nat
  out_of_bounds : T

namespace Bitmap

/-- Constructor `Bitmap::new`: `vec![blank; (width * height) as usize]`; the `u32`
product wraps modulo `2^32` before the (exact) cast to `usize`. -/
def new (width height : Nat) (blank : T) : Bitmap T :=
  { elements := List.replicate (width * height % u32Card) blank
    width := width
    height := height
    out_of_bounds := blank }

/-- Method `Bitmap::flatten_index`: `(x + y * self.width as i32) as usize`,
with both the multiplication and the addition performed in `i32`. -/
def flatten_index (b : Bitmap T) (pos : Int × Int) : Nat :=
  i32AsUsize (i32Wrap (pos.1 + i32Wrap (pos.2 * u32AsI32 b.width)))

/-- Method `Bitmap::is_in_bounds`:
`x >= 0 && x < width as i32 && y >= 0 && y < height as i32`. -/
def is_in_bounds (b : Bitmap T) (pos : Int × Int) : Bool :=
  decide (0 ≤ pos.1) && decide (pos.1 < u32AsI32 b.width) &&
    decide (0 ≤ pos.2) && decide (pos.2 < u32AsI32 b.height)

/-- The `Index` impl: in-bounds yields `&self.elements[idx]` (the `none`
result models the panic of a vector index past the end), out-of-bounds
yields the sentinel. -/
def index (b : Bitmap T) (pos : Int × Int) : Option T :=
  if b.is_in_bounds pos then b.elements.get? (b.flatten_index pos)
  else some b.out_of_bounds

/-- Method `Bitmap::set`: the returned pair is `(result, final state)` of the
`&mut self` method; `none` models the panic of `self.elements[index]`
on an index past the end of the vector. -/
def set (b : Bitmap T) (pos : Int × Int) (value : T) :
    Option (Except OutOfBoundsError Unit × Bitmap T) :=
  if b.is_in_bounds pos then
    if b.flatten_index pos < b.elements.length then
      some (.ok (), { b with elements := b.elements.set (b.flatten_index pos) value })
    else none
  else some (.error ⟨⟩, b)

end Bitmap

/-! ### Parsing (`Bitmap::parse`) -/

/-- The two `anyhow` parse failures, carrying exactly the data the Rust
error messages interpolate: the first line's width and the offending
line for a width mismatch, and the offending character (only — the
message `"{c:?} is not a valid bitmap element"` contains no position)
for an invalid element. -/
inductive ParseError : Type where
  | widthMismatch (firstWidth : Nat) (line : List Char)
  | invalidElement (c : Char)
deriving DecidableEq

/-- The `BitmapParser` trait: `parse_element(&mut self, position, c)`
returns the optional element together with the successor parser state
(the `&mut self` side effect). -/
structure BitmapParser (P T : Type) where
  parseElement : P → Nat × Nat → Char → Option T × P

/-- The inner character loop of `Bitmap::parse` over one line:
`x` enumerates characters, the position is cast to `(u32, u32)`. -/
def lineRun (bp : BitmapParser P T) (y : Nat) :
    List Char → Nat → P → Except ParseError (List T × P)
  | [], _, p => .ok ([], p)
  | c :: cs, x, p =>
    match bp.parseElement p (x % u32Card, y % u32Card) c with
    | (none, _) => .error (.invalidElement c)
    | (some t, p') =>
      match lineRun bp y cs (x + 1) p' with
      | .error e => .error e
      | .ok (ts, p'') => .ok (t :: ts, p'')

/-- The UTF-8 byte length of a line: Rust's `str::len()` counts bytes,
not characters, and `line.len() as u32` is the length `Bitmap::parse`
compares and stores as the width (while elements are pushed once per
`char`). -/
def utf8Len (l : List Char) : Nat := (l.map Char.utf8Size).sum

/-- The line loop of `Bitmap::parse`: `width` is the running
`Option<u32>`, `height` the running `u32` counter (wrapping), `acc` the
element vector built so far.  Each line is first checked against the
previous width (`line.len() as u32 != width` bails, comparing UTF-8
byte lengths), then parsed char by char, then `width` is reassigned
and `height` incremented. -/
def parseGo (bp : BitmapParser P T) (dflt : T) :
    List (List Char) → Nat → Option Nat → Nat → List T → P →
    Except ParseError (Bitmap T × P)
  | [], _, w, h, acc, p =>
    .ok ({ width := w.getD 0, height := h, elements := acc
           out_of_bounds := dflt }, p)
  | line :: rest, y, some w0, h, acc, p =>
    let lw := utf8Len line % u32Card
    if lw ≠ w0 then .error (.widthMismatch w0 line)
    else
      match lineRun bp y line 0 p with
      | .error e => .error e
      | .ok (ts, p') =>
        parseGo bp dflt rest (y + 1) (some lw) ((h + 1) % u32Card)
          (acc ++ ts) p'
  | line :: rest, y, none, h, acc, p =>
    let lw := utf8Len line % u32Card
    match lineRun bp y line 0 p with
    | .error e => .error e
    | .ok (ts, p') =>
      parseGo bp dflt rest (y + 1) (some lw) ((h + 1) % u32Card)
        (acc ++ ts) p'

/-- Function `Bitmap::parse`: text is taken already split into lines (the
decomposition `str::lines` performs); `dflt` is `T::default()`, used for
the sentinel of the constructed bitmap. -/
def Bitmap.parse (bp : BitmapParser P T) (p : P) (text : List (List Char))
    (dflt : T) : Except ParseError (Bitmap T × P) :=
  parseGo bp dflt text 0 none 0 [] p

/-! ## The Pathfinder component (`src/astar.rs`) -/

/-- Struct `AStar<'a, Node>`: `f32` costs are modelled as `ℚ`;
`visit_neighbors` is modelled by the list of `(neighbor, weight)`
arguments it passes to its callback, in invocation order. -/
structure AStar (Node : Type) where
  start : Node
  goal : Node
  heuristic : Node → ℚ
  visit_neighbors : Node → List (Node × ℚ)

/-- First-match lookup in an association list (a `HashMap` whose
`insert` prepends). -/
def alookup [DecidableEq K] (m : List (K × V)) (k : K) : Option V :=
  (m.find? fun e => decide (e.1 = k)).map (·.2)

/-- Insertion `HashMap::insert`: the new binding shadows any previous one. -/
def ainsert [DecidableEq K] (m : List (K × V)) (k : K) (v : V) :
    List (K × V) :=
  (k, v) :: m

/-- Insertion `HashSet::insert`: add the element unless already present. -/
def sinsert [DecidableEq K] (l : List K) (k : K) : List K :=
  if k ∈ l then l else k :: l

/-- Selection `open_set.iter().min()`: the minimum element of the set under the
node's `Ord`; `none` iff the set is empty.  Independent of list order
(proved below), matching the hash-order independence of the Rust
expression. -/
def openSetMin [LinearOrder Node] : List Node → Option Node
  | [] => none
  | x :: xs => some (xs.foldl min x)

/-- The four mutable locals of `find_path`. -/
structure SearchState (Node : Type) where
  openSet : List Node
  cameFrom : List (Node × Node)
  gScore : List (Node × ℚ)
  fScore : List (Node × ℚ)
deriving DecidableEq

/-- Method `AStar::reconstruct_path`, with explicit fuel for the `while` loop
(the loop walks `came_from` links; callers pass fuel exceeding the
number of entries, which bounds every terminating walk, so the model
agrees with the source whenever the source terminates).  The Rust loop
pushes each predecessor and finally reverses; this recursion builds the
already-reversed list. -/
def reconstruct_path [DecidableEq Node] :
    Nat → List (Node × Node) → Node → List Node
  | 0, _, _ => []
  | fuel + 1, cameFrom, current =>
    match alookup cameFrom current with
    | none => []
    | some prev => reconstruct_path fuel cameFrom prev ++ [prev]

/-- The relaxation condition
`tentative_g_score < g_score.get(neighbor).copied().unwrap_or(f32::INFINITY)`:
an absent entry compares as `+∞`, hence is always improved upon. -/
def betterScore [DecidableEq Node] (g : List (Node × ℚ)) (tentative : ℚ)
    (n : Node) : Bool :=
  match alookup g n with
  | some gn => decide (tentative < gn)
  | none => true

/-- The body of the `visit_neighbors` callback closure for one reported
`(neighbor, weight)` pair; `none` models the panic of `g_score[&current]`
when `current` has no score (never reachable from `find_path`'s initial
state). -/
def expandNeighbor [DecidableEq Node] (heuristic : Node → ℚ)
    (current : Node) (s : SearchState Node) (nw : Node × ℚ) :
    Option (SearchState Node) :=
  match alookup s.gScore current with
  | none => none
  | some gc =>
    let tentative := gc + nw.2
    if betterScore s.gScore tentative nw.1 then
      some { openSet := sinsert s.openSet nw.1
             cameFrom := ainsert s.cameFrom nw.1 current
             gScore := ainsert s.gScore nw.1 tentative
             fScore := ainsert s.fScore nw.1 (tentative + heuristic nw.1) }
    else some s

/-- One full `visit_neighbors` invocation: fold the closure over the
reported pairs in order. -/
def expandAll [DecidableEq Node] (a : AStar Node) (current : Node)
    (s : SearchState Node) : Option (SearchState Node) :=
  (a.visit_neighbors current).foldlM (expandNeighbor a.heuristic current) s

/-- Result of one iteration of the `while !open_set.is_empty()` loop. -/
inductive StepOut (Node : Type) where
  | done (r : Option (List Node))
  | next (s : SearchState Node)
  | stuck
deriving DecidableEq

/-- One iteration of the main loop of `find_path`: select
`open_set.iter().min()`; if it is the goal, reconstruct; otherwise
remove it from the frontier and expand its neighbors (`stuck` models the
panic inside the closure). An empty frontier ends the loop with `None`. -/
def astarStep [LinearOrder Node] (a : AStar Node) (s : SearchState Node) :
    StepOut Node :=
  match openSetMin s.openSet with
  | none => .done none
  | some current =>
    if current = a.goal then
      .done (some (reconstruct_path (s.cameFrom.length + 1) s.cameFrom
        current))
    else
      match expandAll a current
          { s with openSet := s.openSet.filter fun n => n ≠ current } with
      | none => .stuck
      | some s' => .next s'

/-- The fueled main loop: `none` = fuel exhausted (or a panic), `some r`
= the loop terminated and `find_path` returned `r`. -/
def findLoop [LinearOrder Node] (a : AStar Node) :
    Nat → SearchState Node → Option (Option (List Node))
  | 0, _ => none
  | fuel + 1, s =>
    match astarStep a s with
    | .done r => some r
    | .stuck => none
    | .next s' => findLoop a fuel s'

/-- Method `AStar::find_path` with explicit fuel: initialize
`open_set = {start}`, `g_score[start] = 0`,
`f_score[start] = heuristic(start)`, then run the loop. -/
def find_path [LinearOrder Node] (a : AStar Node) (fuel : Nat) :
    Option (Option (List Node)) :=
  findLoop a fuel
    { openSet := [a.start]
      cameFrom := []
      gScore := [(a.start, 0)]
      fScore := [(a.start, a.heuristic a.start)] }

/-- The terminating predecessor walk of `reconstruct_path`:
`PredPath cf c l` holds when following the `came_from` links from `c`
reaches a node with no recorded predecessor, and `l` is the reversed
chain of predecessors so visited — exactly the list the Rust loop
builds (the queried node `c` itself is never an element it pushes). -/
inductive PredPath {Node : Type} [DecidableEq Node]
    (cf : List (Node × Node)) : Node → List Node → Prop where
  | root {c : Node} : alookup cf c = none → PredPath cf c []
  | step {c p : Node} {l : List Node} : alookup cf c = some p →
      PredPath cf p l → PredPath cf c (l ++ [p])

/-! ## Concrete pathfinder instances -/

/-- Search exposing the frontier-selection rule: from `0` the goal `2`
is reachable directly at cost `10` or via `3` at total cost `2`; the
heuristic is identically `0`, so `f`-values equal `g`-values. -/
def exC1 : AStar ℕ :=
  { start := 0, goal := 2, heuristic := fun _ => 0,
    visit_neighbors := fun n =>
      if n = 0 then [(3, 1), (2, 10)] else if n = 3 then [(2, 1)] else [] }

/-- The state `find_path exC1` reaches after its first loop iteration
(expanding `0`): frontier `{2, 3}`, `f(2) = 10`, `f(3) = 1`. -/
def exC1Mid : SearchState ℕ :=
  { openSet := [2, 3]
    cameFrom := [(2, 0), (3, 0)]
    gScore := [(2, 10), (3, 1), (0, 0)]
    fScore := [(2, 10), (3, 1), (0, 0)] }

/-- The 1-D chain graph `0-1-2-3-4` of the spec: neighbors are the
numeric ±1 neighbors within range at weight 1, heuristic is the
absolute distance to the goal `4`. -/
def exChain : AStar ℕ :=
  { start := 0, goal := 4,
    heuristic := fun n => ((4 - (n : ℤ)).natAbs : ℚ),
    visit_neighbors := fun n =>
      (if 1 ≤ n then [(n - 1, (1 : ℚ))] else []) ++
        (if n < 4 then [(n + 1, (1 : ℚ))] else []) }

/-- A search whose goal `1` is a disconnected node: no node has any
neighbor, so the goal is unreachable. -/
def exDisc : AStar ℕ :=
  { start := 0, goal := 1, heuristic := fun _ => 0,
    visit_neighbors := fun _ => [] }

/-- A search whose start equals its goal. -/
def exSame : AStar ℕ :=
  { start := 5, goal := 5, heuristic := fun _ => 3,
    visit_neighbors := fun n => [(n + 1, 1)] }

/-- The character scan of a sequence of lines starting at row `y`,
ignoring width checks: exactly the element-producing part of the parse
loop, used to state hypotheses about prefixes of the input that parse
cleanly. -/
def scanLines (bp : BitmapParser P T) :
    List (List Char) → Nat → P → Except ParseError (List T × P)
  | [], _, p => .ok ([], p)
  | l :: ls, y, p =>
    match lineRun bp y l 0 p with
    | .error e => .error e
    | .ok (ts, p') =>
      match scanLines bp ls (y + 1) p' with
      | .error e => .error e
      | .ok (ts', p'') => .ok (ts ++ ts', p'')


/-- States equal except for the ordering of the frontier list — the
observational equivalence class a `HashSet` frontier lives in. -/
def SRel {N : Type} (s1 s2 : SearchState N) : Prop :=
  s1.openSet.Perm s2.openSet ∧ s1.cameFrom = s2.cameFrom ∧
    s1.gScore = s2.gScore ∧ s1.fScore = s2.fScore


/-- Relation on loop-iteration outcomes: equal results, related
successor states. -/
def StepRel {N : Type} : StepOut N → StepOut N → Prop
  | .done r1, .done r2 => r1 = r2
  | .next t1, .next t2 => SRel t1 t2
  | .stuck, .stuck => True
  | _, _ => False


/-! ## Concrete parsers -/

/-- A parser accepting every character as itself. -/
def bpEcho : BitmapParser Unit Char := ⟨fun _ _ c => (some c, ())⟩

/-- A parser accepting only `'a'`. -/
def bpOnlyA : BitmapParser Unit ℕ :=
  ⟨fun _ _ c => (if c = 'a' then some 0 else none, ())⟩

/-- A parser rejecting every character. -/
def bpRej : BitmapParser Unit ℕ := ⟨fun _ _ _ => (none, ())⟩


/-! ## Claim C1 -/

/-- C1: the main loop does **not** select the frontier node of minimum
`f`-value.  `find_path` reaches the state `exC1Mid`, whose frontier
holds `3` with `f = 1` and `2` with `f = 10`; the very next iteration
nevertheless selects `2` — the smallest node by the node type's `Ord` —
because the selection `open_set.iter().min()` consults only the node
ordering and never reads `f_score` (which `find_path` writes but never
reads).  A min-`f` selection would have expanded `3` first and returned
the cost-2 path through it; the code instead terminates at once with
the cost-10 single-edge path (predecessor chain `[0]`). -/
theorem astar_selection_ignores_f_score :
    astarStep exC1 ⟨[0], [], [(0, 0)], [(0, 0)]⟩ = .next exC1Mid ∧
    (3 ∈ exC1Mid.openSet ∧ alookup exC1Mid.fScore 3 = some 1) ∧
    (2 ∈ exC1Mid.openSet ∧ alookup exC1Mid.fScore 2 = some 10) ∧
    astarStep exC1 exC1Mid = .done (some [0]) ∧
    find_path exC1 9 = some (some [0]) := by
  with_unfolding_all decide

/-! ## Predecessor-chain lemmas -/

theorem alookup_isSome_mem {K V : Type} [DecidableEq K]
    {m : List (K × V)} {k : K} (h : (alookup m k).isSome = true) :
    k ∈ m.map Prod.fst := by
  unfold alookup at h
  cases hf : m.find? fun e => decide (e.1 = k) with
  | none => rw [hf] at h; simp at h
  | some e =>
    have h1 := List.find?_some hf
    have h2 : e ∈ m := List.mem_of_find?_eq_some hf
    simp only [decide_eq_true_eq] at h1
    rw [← h1]
    exact List.mem_map.2 ⟨e, h2, rfl⟩

theorem predPath_unique {N : Type} [DecidableEq N] {cf : List (N × N)} :
    ∀ {c : N} {l1 : List N}, PredPath cf c l1 →
      ∀ {l2 : List N}, PredPath cf c l2 → l1 = l2 := by
  intro c l1 h1
  induction h1 with
  | root hn =>
    intro l2 h2
    cases h2 with
    | root _ => rfl
    | step hs _ => rw [hn] at hs; exact absurd hs (by simp)
  | step hs hp ih =>
    intro l2 h2
    cases h2 with
    | root hn => rw [hn] at hs; exact absurd hs (by simp)
    | step hs2 hp2 =>
      rw [hs] at hs2
      injection hs2 with hpe
      subst hpe
      rw [ih hp2]

theorem predPath_mem {N : Type} [DecidableEq N] {cf : List (N × N)} :
    ∀ {c : N} {l : List N}, PredPath cf c l →
      ∀ d ∈ l, ∃ ld, PredPath cf d ld ∧ ld.length < l.length := by
  intro c l h
  induction h with
  | root _ => intro d hd; simp at hd
  | @step c p l hs hp ih =>
    intro d hd
    rcases List.mem_append.1 hd with hd1 | hd1
    · obtain ⟨ld, hh1, hh2⟩ := ih d hd1
      refine ⟨ld, hh1, ?_⟩
      simp only [List.length_append, List.length_cons, List.length_nil]
      omega
    · simp only [List.mem_singleton] at hd1
      subst hd1
      refine ⟨l, hp, ?_⟩
      simp only [List.length_append, List.length_cons, List.length_nil]
      omega

theorem predPath_not_self {N : Type} [DecidableEq N] {cf : List (N × N)}
    {c : N} {l : List N} (h : PredPath cf c l) : c ∉ l := by
  intro hmem
  obtain ⟨ld, hld, hlt⟩ := predPath_mem h c hmem
  rw [predPath_unique h hld] at hlt
  exact absurd hlt (lt_irrefl _)

theorem predPath_nil_lookup {N : Type} [DecidableEq N]
    {cf : List (N × N)} {p : N} {l : List N} (h : PredPath cf p l)
    (hl : l = []) : alookup cf p = none := by
  cases h with
  | root hn => exact hn
  | step hs hp => exact absurd hl (by simp)

theorem predPath_head_root {N : Type} [DecidableEq N] {cf : List (N × N)} :
    ∀ {c : N} {l : List N}, PredPath cf c l →
      ∀ (r : N) (rest : List N), l = r :: rest → alookup cf r = none := by
  intro c l h
  induction h with
  | root _ => intro r rest heq; simp at heq
  | @step c p l hs hp ih =>
    intro r rest heq
    cases l with
    | nil =>
      simp only [List.nil_append, List.cons.injEq] at heq
      rw [← heq.1]
      exact predPath_nil_lookup hp rfl
    | cons r2 l2 =>
      simp only [List.cons_append, List.cons.injEq] at heq
      rw [← heq.1]
      exact ih r2 l2 rfl

theorem predPath_keys {N : Type} [DecidableEq N] {cf : List (N × N)} :
    ∀ {c : N} {l : List N}, PredPath cf c l →
      ∃ ks : List N, ks.Nodup ∧ ks.length = l.length ∧
        (∀ x ∈ ks, (alookup cf x).isSome = true) ∧
        ∀ x ∈ ks, x ∈ c :: l := by
  intro c l h
  induction h with
  | root _ => exact ⟨[], by simp, by simp, by simp, by simp⟩
  | @step c p l hs hp ih =>
    obtain ⟨ks, hnd, hlen, hsome, hsub⟩ := ih
    refine ⟨c :: ks, ?_, ?_, ?_, ?_⟩
    · rw [List.nodup_cons]
      refine ⟨?_, hnd⟩
      intro hc
      have h1 := hsub c hc
      have h2 : c ∈ l ++ [p] := by
        rcases List.mem_cons.1 h1 with h3 | h3
        · rw [h3]; simp
        · exact List.mem_append.2 (Or.inl h3)
      exact predPath_not_self (PredPath.step hs hp) h2
    · simp only [List.length_cons, List.length_append, List.length_nil,
        hlen]
    · intro x hx
      rcases List.mem_cons.1 hx with h3 | h3
      · rw [h3, hs]; rfl
      · exact hsome x h3
    · intro x hx
      rcases List.mem_cons.1 hx with h3 | h3
      · rw [h3]; exact List.mem_cons_self _ _
      · have h4 := hsub x h3
        rcases List.mem_cons.1 h4 with h5 | h5
        · exact List.mem_cons_of_mem _ (by rw [h5]; simp)
        · exact List.mem_cons_of_mem _ (List.mem_append.2 (Or.inl h5))

theorem predPath_length_le {N : Type} [DecidableEq N] {cf : List (N × N)}
    {c : N} {l : List N} (h : PredPath cf c l) : l.length ≤ cf.length := by
  obtain ⟨ks, hnd, hlen, hsome, -⟩ := predPath_keys h
  have hsub : ks ⊆ cf.map Prod.fst := fun x hx =>
    alookup_isSome_mem (hsome x hx)
  have hle := (List.subperm_of_subset hnd hsub).length_le
  rw [List.length_map] at hle
  omega

theorem reconstruct_path_of_predPath {N : Type} [DecidableEq N]
    {cf : List (N × N)} :
    ∀ {c : N} {l : List N}, PredPath cf c l →
      ∀ (fuel : Nat), l.length < fuel → reconstruct_path fuel cf c = l := by
  intro c l h
  induction h with
  | @root c hn =>
    intro fuel hf
    cases fuel with
    | zero => simp at hf
    | succ f => simp [reconstruct_path, hn]
  | @step c p l hs hp ih =>
    intro fuel hf
    cases fuel with
    | zero => simp at hf
    | succ f =>
      have hlt : l.length < f := by
        simp only [List.length_append, List.length_cons, List.length_nil]
          at hf
        omega
      simp only [reconstruct_path, hs]
      rw [ih f hlt]

/-! ## Claim C2 -/

/-- C2, counterexample: on the spec's own 1-D chain graph, searching
from `0` to `4` does not return `[1, 2, 3, 4]`; `reconstruct_path`
pushes only predecessors, so the result is `[0, 1, 2, 3]` — start
included, goal excluded. -/
theorem chain_path_not_goal_inclusive :
    find_path exChain 10 = some (some [0, 1, 2, 3]) ∧
    find_path exChain 10 ≠ some (some [1, 2, 3, 4]) := by
  with_unfolding_all decide

/-- C2, amended: for every search in which the main loop selects the
goal from the frontier, `find_path` returns exactly the reversed chain
of recorded predecessors of the goal (`PredPath` — the walk
`reconstruct_path` performs, whenever it terminates, as it does in
every terminating run): the goal itself is excluded from the returned
path, and the path's head is the chain's root — the unique node with
no recorded predecessor, which is the start node in an actual run.  On
the spec's 1-D chain graph `0-1-2-3-4`, searching from `0` to `4`
returns `[0, 1, 2, 3]`: start included, goal excluded. -/
theorem chain_path_start_inclusive :
    (∀ (N : Type) [LinearOrder N] (a : AStar N)
      (s : SearchState N) (l : List N),
      openSetMin s.openSet = some a.goal →
      PredPath s.cameFrom a.goal l →
      astarStep a s = .done (some l) ∧ a.goal ∉ l ∧
        ∀ (r : N) (rest : List N), l = r :: rest →
          alookup s.cameFrom r = none) ∧
    find_path exChain 10 = some (some [0, 1, 2, 3]) ∧
    [0, 1, 2, 3].head? = some exChain.start ∧
    exChain.goal ∉ ([0, 1, 2, 3] : List ℕ) := by
  refine ⟨?_, by with_unfolding_all decide, by decide, by decide⟩
  intro N instN a s l hmin hpp
  refine ⟨?_, predPath_not_self hpp, fun r rest heq =>
    predPath_head_root hpp r rest heq⟩
  unfold astarStep
  rw [hmin]
  simp only [if_true]
  rw [reconstruct_path_of_predPath hpp (s.cameFrom.length + 1)
    (Nat.lt_succ_of_le (predPath_length_le hpp))]

/-- Witness for C2's amended theorem: the goal-selection step applied
at a concrete search state whose predecessor map records the chain
`4 ← 3 ← 2 ← 1 ← 0`; the returned path is `[0, 1, 2, 3]`. -/
theorem chain_path_start_inclusive_witness :
    astarStep exChain
      ⟨[4], [(4, 3), (3, 2), (2, 1), (1, 0)], [], []⟩ =
      .done (some [0, 1, 2, 3]) := by
  have h0 : PredPath ([(4, 3), (3, 2), (2, 1), (1, 0)] : List (ℕ × ℕ))
      0 [] := PredPath.root (by rfl)
  have h1 : PredPath ([(4, 3), (3, 2), (2, 1), (1, 0)] : List (ℕ × ℕ))
      1 ([] ++ [0]) := PredPath.step (by rfl) h0
  have h2 : PredPath ([(4, 3), (3, 2), (2, 1), (1, 0)] : List (ℕ × ℕ))
      2 (([] ++ [0]) ++ [1]) := PredPath.step (by rfl) h1
  have h3 : PredPath ([(4, 3), (3, 2), (2, 1), (1, 0)] : List (ℕ × ℕ))
      3 ((([] ++ [0]) ++ [1]) ++ [2]) := PredPath.step (by rfl) h2
  have h4 : PredPath ([(4, 3), (3, 2), (2, 1), (1, 0)] : List (ℕ × ℕ))
      4 (((([] ++ [0]) ++ [1]) ++ [2]) ++ [3]) := PredPath.step (by rfl) h3
  exact (chain_path_start_inclusive.1 ℕ exChain
    ⟨[4], [(4, 3), (3, 2), (2, 1), (1, 0)], [], []⟩ [0, 1, 2, 3]
    (by rfl) h4).1

/-! ## Claim C10 -/

/-- C10: when start equals goal, `find_path` returns `Some` of the
empty path on the very first iteration.  The statement holds for every
`AStar` instance with `start = goal`, whatever its `visit_neighbors`
and `heuristic` callbacks — so the result provably does not depend on
the neighbor expansion at all, and depends on the heuristic only
through the single initialization call whose value is never read. -/
theorem astar_start_eq_goal_empty_path {N : Type} [LinearOrder N]
    (a : AStar N) (fuel : ℕ) (h : a.start = a.goal) :
    find_path a (fuel + 1) = some (some []) := by
  simp [find_path, findLoop, astarStep, openSetMin, reconstruct_path,
    alookup, h]

/-- Witness for C10 at the concrete instance `exSame`. -/
theorem astar_start_eq_goal_empty_path_witness :
    find_path exSame 4 = some (some []) :=
  astar_start_eq_goal_empty_path exSame 3 rfl

/-! ## Claim C8 -/

/-- C8: whenever the frontier empties without the goal having been
selected, the loop terminates normally with the `None` ("not found")
value — never a panic (`stuck`/outer `none`) and never a distinct error
value; and concretely, the search `exDisc` whose goal is a disconnected
node returns `None`. -/
theorem astar_empty_frontier_returns_none :
    (∀ (N : Type) [LinearOrder N] (a : AStar N) (fuel : ℕ)
      (s : SearchState N), s.openSet = [] →
      findLoop a (fuel + 1) s = some none) ∧
    find_path exDisc 5 = some none := by
  constructor
  · intro N _ a fuel s hs
    simp [findLoop, astarStep, hs, openSetMin]
  · with_unfolding_all decide

/-- Witness for C8's universally quantified conjunct, at a concrete
empty-frontier state. -/
theorem astar_empty_frontier_returns_none_witness :
    findLoop exDisc 1 ⟨[], [], [], []⟩ = some none :=
  astar_empty_frontier_returns_none.1 ℕ exDisc 0 ⟨[], [], [], []⟩ rfl

/-! ## Claim C9: order-independence machinery -/

theorem foldl_min_mem {N : Type} [LinearOrder N] :
    ∀ (xs : List N) (x : N), xs.foldl min x ∈ x :: xs := by
  intro xs
  induction xs with
  | nil => intro x; simp
  | cons y ys ih =>
    intro x
    have h := ih (min x y)
    show List.foldl min (min x y) ys ∈ x :: y :: ys
    rcases List.mem_cons.1 h with h1 | h1
    · rcases min_choice x y with h2 | h2
      · rw [h1, h2]; exact List.mem_cons_self _ _
      · rw [h1, h2]; exact List.mem_cons_of_mem _ (List.mem_cons_self _ _)
    · exact List.mem_cons_of_mem _ (List.mem_cons_of_mem _ h1)

theorem foldl_min_le {N : Type} [LinearOrder N] :
    ∀ (xs : List N) (x y : N), y ∈ x :: xs → xs.foldl min x ≤ y := by
  intro xs
  induction xs with
  | nil =>
    intro x y hy
    rcases List.mem_cons.1 hy with h1 | h1
    · simp [h1]
    · simp at h1
  | cons z zs ih =>
    intro x y hy
    show List.foldl min (min x z) zs ≤ y
    rcases List.mem_cons.1 hy with h1 | h1
    · calc List.foldl min (min x z) zs
          ≤ min x z := ih (min x z) _ (List.mem_cons_self _ _)
        _ ≤ x := min_le_left _ _
        _ = y := h1.symm
    · rcases List.mem_cons.1 h1 with h2 | h2
      · calc List.foldl min (min x z) zs
            ≤ min x z := ih (min x z) _ (List.mem_cons_self _ _)
          _ ≤ z := min_le_right _ _
          _ = y := h2.symm
      · exact ih (min x z) y (List.mem_cons_of_mem _ h2)

theorem openSetMin_perm {N : Type} [LinearOrder N] {l1 l2 : List N}
    (h : l1.Perm l2) : openSetMin l1 = openSetMin l2 := by
  cases l1 with
  | nil =>
    have h2 : l2 = [] := h.symm.eq_nil
    rw [h2]
  | cons x xs =>
    cases l2 with
    | nil => exact absurd h.eq_nil (by simp)
    | cons z zs =>
      show some (xs.foldl min x) = some (zs.foldl min z)
      apply congrArg some
      apply le_antisymm
      · exact foldl_min_le xs x _ (h.mem_iff.2 (foldl_min_mem zs z))
      · exact foldl_min_le zs z _ (h.mem_iff.1 (foldl_min_mem xs x))

theorem sinsert_perm {N : Type} [DecidableEq N] {l1 l2 : List N}
    (h : l1.Perm l2) (k : N) : (sinsert l1 k).Perm (sinsert l2 k) := by
  unfold sinsert
  by_cases hk : k ∈ l1
  · rw [if_pos hk, if_pos (h.mem_iff.1 hk)]; exact h
  · rw [if_neg hk, if_neg fun hh => hk (h.mem_iff.2 hh)]; exact h.cons k

theorem expandNeighbor_rel {N : Type} [DecidableEq N] (he : N → ℚ)
    (c : N) {s1 s2 : SearchState N} (hr : SRel s1 s2) (nw : N × ℚ) :
    Option.Rel SRel (expandNeighbor he c s1 nw)
      (expandNeighbor he c s2 nw) := by
  obtain ⟨hp, hc, hg, hf⟩ := hr
  unfold expandNeighbor
  rw [hg]
  cases alookup s2.gScore c with
  | none => exact Option.Rel.none
  | some gc =>
    by_cases hb : betterScore s2.gScore (gc + nw.2) nw.1
    · simp only [hb, if_true]
      refine Option.Rel.some ⟨?_, ?_, ?_, ?_⟩
      · exact sinsert_perm hp nw.1
      · show ainsert s1.cameFrom nw.1 c = ainsert s2.cameFrom nw.1 c
        rw [hc]
      · rfl
      · show ainsert s1.fScore nw.1 (gc + nw.2 + he nw.1) =
          ainsert s2.fScore nw.1 (gc + nw.2 + he nw.1)
        rw [hf]
    · simp only [hb, if_false, Bool.false_eq_true]
      exact Option.Rel.some ⟨hp, hc, hg, hf⟩

theorem foldlM_rel {N : Type} [DecidableEq N] (he : N → ℚ) (c : N) :
    ∀ (l : List (N × ℚ)) {s1 s2 : SearchState N}, SRel s1 s2 →
      Option.Rel SRel (l.foldlM (expandNeighbor he c) s1)
        (l.foldlM (expandNeighbor he c) s2) := by
  intro l
  induction l with
  | nil => intro s1 s2 hr; exact Option.Rel.some hr
  | cons nw l ih =>
    intro s1 s2 hr
    rw [List.foldlM_cons, List.foldlM_cons]
    have h1 := expandNeighbor_rel he c hr nw
    cases hA : expandNeighbor he c s1 nw with
    | none =>
      cases hB : expandNeighbor he c s2 nw with
      | none => simp [hA, hB]; exact Option.Rel.none
      | some t2 => rw [hA, hB] at h1; cases h1
    | some t1 =>
      cases hB : expandNeighbor he c s2 nw with
      | none => rw [hA, hB] at h1; cases h1
      | some t2 =>
        rw [hA, hB] at h1
        cases h1 with
        | some hr' => simp [hA, hB]; exact ih hr'

theorem astarStep_rel {N : Type} [LinearOrder N] (a : AStar N)
    {s1 s2 : SearchState N} (hr : SRel s1 s2) :
    StepRel (astarStep a s1) (astarStep a s2) := by
  obtain ⟨hp, hc, hg, hf⟩ := hr
  unfold astarStep
  rw [openSetMin_perm hp]
  cases openSetMin s2.openSet with
  | none => exact rfl
  | some current =>
    by_cases hgoal : current = a.goal
    · simp only [hgoal, if_true, hc]
      exact rfl
    · simp only [hgoal, if_false]
      have hr2 : SRel
          { s1 with openSet := s1.openSet.filter fun n => n ≠ current }
          { s2 with openSet := s2.openSet.filter fun n => n ≠ current } :=
        ⟨hp.filter _, hc, hg, hf⟩
      have hrel := foldlM_rel a.heuristic current (a.visit_neighbors current)
        hr2
      unfold expandAll
      cases hA : List.foldlM (expandNeighbor a.heuristic current)
          { s1 with openSet := s1.openSet.filter fun n => n ≠ current }
          (a.visit_neighbors current) with
      | none =>
        cases hB : List.foldlM (expandNeighbor a.heuristic current)
            { s2 with openSet := s2.openSet.filter fun n => n ≠ current }
            (a.visit_neighbors current) with
        | none => simp [hA, hB]; exact trivial
        | some t2 => rw [hA, hB] at hrel; cases hrel
      | some t1 =>
        cases hB : List.foldlM (expandNeighbor a.heuristic current)
            { s2 with openSet := s2.openSet.filter fun n => n ≠ current }
            (a.visit_neighbors current) with
        | none => rw [hA, hB] at hrel; cases hrel
        | some t2 =>
          rw [hA, hB] at hrel
          cases hrel with
          | some hr' => simp [hA, hB]; exact hr'

/-! ## Claim C9 -/

/-- C9: `find_path` is deterministic.  The model is a pure function, so
two runs on identical inputs are definitionally equal; the one source
of runtime nondeterminism in the Rust code — the iteration order of the
`HashSet` frontier in `open_set.iter().min()` — is proved immaterial
here: running the loop from frontier states that are permutations of
one another (all score maps equal) yields identical results, at every
fuel, including the identical reconstructed path. -/
theorem astar_result_order_independent {N : Type} [LinearOrder N]
    (a : AStar N) :
    ∀ (fuel : ℕ) (s1 s2 : SearchState N), s1.openSet.Perm s2.openSet →
      s1.cameFrom = s2.cameFrom → s1.gScore = s2.gScore →
      s1.fScore = s2.fScore → findLoop a fuel s1 = findLoop a fuel s2 := by
  intro fuel
  induction fuel with
  | zero => intro s1 s2 _ _ _ _; rfl
  | succ fuel ih =>
    intro s1 s2 hp hc hg hf
    have hstep := astarStep_rel a ⟨hp, hc, hg, hf⟩
    unfold findLoop
    cases hA : astarStep a s1 with
    | done r1 =>
      cases hB : astarStep a s2 with
      | done r2 => rw [hA, hB] at hstep; rw [hstep]
      | next t2 => rw [hA, hB] at hstep; cases hstep
      | stuck => rw [hA, hB] at hstep; cases hstep
    | next t1 =>
      cases hB : astarStep a s2 with
      | done r2 => rw [hA, hB] at hstep; cases hstep
      | next t2 =>
        rw [hA, hB] at hstep
        exact ih t1 t2 hstep.1 hstep.2.1 hstep.2.2.1 hstep.2.2.2
      | stuck => rw [hA, hB] at hstep; cases hstep
    | stuck =>
      cases hB : astarStep a s2 with
      | done r2 => rw [hA, hB] at hstep; cases hstep
      | next t2 => rw [hA, hB] at hstep; cases hstep
      | stuck => rfl

/-- Witness for C9: two frontier orderings of the same search state
give the same outcome. -/
theorem astar_result_order_independent_witness :
    findLoop exSame 3 ⟨[7, 5], [], [(5, 0)], [(5, 3)]⟩ =
      findLoop exSame 3 ⟨[5, 7], [], [(5, 0)], [(5, 3)]⟩ :=
  astar_result_order_independent exSame 3 _ _ (by decide) rfl rfl rfl

/-! ## Bitmap bounds and indexing lemmas -/

theorem u32AsI32_small {n : Nat} (h : n < i32Half) : u32AsI32 n = n :=
  if_pos h

theorem i32Wrap_id {z : Int} (h1 : -(i32Half : Int) ≤ z)
    (h2 : z < (i32Half : Int)) : i32Wrap z = z := by
  unfold i32Wrap
  have hc : ((i32Half : Nat) : Int) = 2147483648 := by norm_num [i32Half]
  have hu : ((u32Card : Nat) : Int) = 4294967296 := by norm_num [u32Card]
  rw [Int.emod_eq_of_lt (by omega) (by omega)]
  ring

theorem i32AsUsize_of_nonneg {z : Int} (h1 : 0 ≤ z)
    (h2 : z < (usizeCard : Int)) : i32AsUsize z = z.toNat := by
  unfold i32AsUsize
  rw [Int.emod_eq_of_lt h1 h2]

theorem flatten_index_eq {T : Type} (b : Bitmap T)
    (hwh : b.width * b.height < i32Half) {x y : Int}
    (h1 : 0 ≤ x) (h2 : x < (b.width : Int)) (h3 : 0 ≤ y)
    (h4 : y < (b.height : Int)) :
    b.flatten_index (x, y) = (x + y * (b.width : Int)).toNat ∧
      b.flatten_index (x, y) < b.width * b.height := by
  have hwpos : 0 < b.width := by exact_mod_cast lt_of_le_of_lt h1 h2
  have hhpos : 0 < b.height := by exact_mod_cast lt_of_le_of_lt h3 h4
  have hws : b.width < i32Half :=
    lt_of_le_of_lt (Nat.le_mul_of_pos_right _ hhpos) hwh
  have hcast : ((b.width * b.height : Nat) : Int) < ((i32Half : Nat) : Int) := by
    exact_mod_cast hwh
  have hprod : ((b.width * b.height : Nat) : Int) =
      (b.width : Int) * (b.height : Int) := by push_cast; ring
  have h5 : y * (b.width : Int) ≤ ((b.height : Int) - 1) * b.width :=
    mul_le_mul_of_nonneg_right (by omega) (by positivity)
  have h6 : 0 ≤ y * (b.width : Int) :=
    mul_nonneg h3 (by positivity)
  have h7 : ((b.height : Int) - 1) * b.width =
      (b.width : Int) * b.height - b.width := by ring
  have h8 : x + y * (b.width : Int) < (b.width : Int) * b.height := by
    linarith
  have h9 : y * (b.width : Int) < (i32Half : Int) := by
    have : (0:Int) < b.width := by exact_mod_cast hwpos
    linarith [hprod ▸ hcast]
  have h10 : x + y * (b.width : Int) < (i32Half : Int) := by
    have hx : x < (i32Half : Int) := by
      have : ((b.width : Nat) : Int) < ((i32Half : Nat) : Int) := by
        exact_mod_cast hws
      omega
    linarith [hprod ▸ hcast]
  have hhalfpos : (0:Int) ≤ (i32Half : Int) := by positivity
  have hwrap1 : i32Wrap (y * u32AsI32 b.width) = y * (b.width : Int) := by
    rw [u32AsI32_small hws]
    exact i32Wrap_id (by omega) h9
  have hwrap2 : i32Wrap (x + y * (b.width : Int)) = x + y * (b.width : Int) :=
    i32Wrap_id (by omega) h10
  have husz : (i32Half : Int) < (usizeCard : Int) := by
    norm_num [i32Half, usizeCard]
  constructor
  · unfold Bitmap.flatten_index
    rw [hwrap1, hwrap2, i32AsUsize_of_nonneg (by omega) (by omega)]
  · unfold Bitmap.flatten_index
    rw [hwrap1, hwrap2, i32AsUsize_of_nonneg (by omega) (by omega)]
    rw [hprod] at hcast
    omega

theorem is_in_bounds_iff {T : Type} (b : Bitmap T) (hw : b.width < u32Card)
    (hh : b.height < u32Card) (hwh : b.width * b.height < i32Half)
    (x y : Int) :
    b.is_in_bounds (x, y) = true ↔
      0 ≤ x ∧ x < (b.width : Int) ∧ 0 ≤ y ∧ y < (b.height : Int) := by
  unfold Bitmap.is_in_bounds
  simp only [Bool.and_eq_true, decide_eq_true_eq]
  constructor
  · rintro ⟨⟨⟨hx1, hx2⟩, hy1⟩, hy2⟩
    refine ⟨hx1, ?_, hy1, ?_⟩
    · by_cases hc : b.width < i32Half
      · rwa [u32AsI32_small hc] at hx2
      · exfalso
        rw [show u32AsI32 b.width = (b.width : Int) - (u32Card : Int) from
          if_neg hc] at hx2
        have : ((b.width : Nat) : Int) < ((u32Card : Nat) : Int) := by
          exact_mod_cast hw
        have : (0:Int) ≤ ((u32Card : Nat) : Int) := by positivity
        omega
    · by_cases hc : b.height < i32Half
      · rwa [u32AsI32_small hc] at hy2
      · exfalso
        rw [show u32AsI32 b.height = (b.height : Int) - (u32Card : Int) from
          if_neg hc] at hy2
        have : ((b.height : Nat) : Int) < ((u32Card : Nat) : Int) := by
          exact_mod_cast hh
        omega
  · rintro ⟨hx1, hx2, hy1, hy2⟩
    have hwpos : 0 < b.width := by exact_mod_cast lt_of_le_of_lt hx1 hx2
    have hhpos : 0 < b.height := by exact_mod_cast lt_of_le_of_lt hy1 hy2
    have hws : b.width < i32Half :=
      lt_of_le_of_lt (Nat.le_mul_of_pos_right _ hhpos) hwh
    have hhs : b.height < i32Half :=
      lt_of_le_of_lt (Nat.le_mul_of_pos_left _ hwpos) hwh
    rw [u32AsI32_small hws, u32AsI32_small hhs]
    exact ⟨⟨⟨hx1, hx2⟩, hy1⟩, hy2⟩

theorem index_spec_in_bounds {T : Type} (b : Bitmap T)
    (hlen : b.elements.length = b.width * b.height)
    (hw : b.width < u32Card) (hh : b.height < u32Card)
    (hwh : b.width * b.height < i32Half) {x y : Int}
    (h1 : 0 ≤ x) (h2 : x < (b.width : Int)) (h3 : 0 ≤ y)
    (h4 : y < (b.height : Int)) :
    b.index (x, y) = b.elements.get? (x + y * (b.width : Int)).toNat ∧
      b.index (x, y) ≠ none := by
  obtain ⟨hfe, hflt⟩ := flatten_index_eq b hwh h1 h2 h3 h4
  have hib : b.is_in_bounds (x, y) = true :=
    (is_in_bounds_iff b hw hh hwh x y).2 ⟨h1, h2, h3, h4⟩
  unfold Bitmap.index
  rw [hib]
  simp only [if_true]
  refine ⟨by rw [hfe], ?_⟩
  rw [hfe] at hflt ⊢
  intro hnone
  rw [List.get?_eq_none] at hnone
  omega

theorem index_spec_oob {T : Type} (b : Bitmap T) (hw : b.width < u32Card)
    (hh : b.height < u32Card) (hwh : b.width * b.height < i32Half)
    {x y : Int}
    (hno : ¬(0 ≤ x ∧ x < (b.width : Int) ∧ 0 ≤ y ∧ y < (b.height : Int))) :
    b.index (x, y) = some b.out_of_bounds := by
  have hib : b.is_in_bounds (x, y) = false := by
    rw [← Bool.not_eq_true]
    intro hc
    exact hno ((is_in_bounds_iff b hw hh hwh x y).1 hc)
  unfold Bitmap.index
  rw [hib]
  simp

/-! ## Claim C6 -/

/-- C6: for positive dimensions whose product is representable in the
`i32` index arithmetic of `flatten_index`, `Bitmap::new(w, h, v)` reads
back `v` at every in-bounds coordinate and the `out_of_bounds` sentinel
at every coordinate outside `[0,w) × [0,h)` (and never panics doing
so). -/
theorem bitmap_new_fill_and_sentinel {T : Type} (w h : ℕ) (v : T)
    (x y : Int) (hwpos : 0 < w) (hhpos : 0 < h) (hwh : w * h < i32Half) :
    ((0 ≤ x ∧ x < (w : Int) ∧ 0 ≤ y ∧ y < (h : Int)) →
      (Bitmap.new w h v).index (x, y) = some v) ∧
    ((x < 0 ∨ (w : Int) ≤ x ∨ y < 0 ∨ (h : Int) ≤ y) →
      (Bitmap.new w h v).index (x, y) =
        some (Bitmap.new w h v).out_of_bounds) := by
  have hucard : i32Half < u32Card := by norm_num [i32Half, u32Card]
  have hw : w < u32Card :=
    lt_trans (lt_of_le_of_lt (Nat.le_mul_of_pos_right _ hhpos) hwh) hucard
  have hh2 : h < u32Card :=
    lt_trans (lt_of_le_of_lt (Nat.le_mul_of_pos_left _ hwpos) hwh) hucard
  have hlen : (Bitmap.new w h v).elements.length =
      (Bitmap.new w h v).width * (Bitmap.new w h v).height := by
    show (List.replicate (w * h % u32Card) v).length = w * h
    rw [List.length_replicate, Nat.mod_eq_of_lt (lt_trans hwh hucard)]
  constructor
  · rintro ⟨h1, h2, h3, h4⟩
    obtain ⟨hfe, hflt⟩ := flatten_index_eq (Bitmap.new w h v)
      (show (Bitmap.new w h v).width * (Bitmap.new w h v).height < i32Half
        from hwh) h1 h2 h3 h4
    obtain ⟨hidx, -⟩ := index_spec_in_bounds (Bitmap.new w h v) hlen hw hh2
      hwh h1 h2 h3 h4
    have hWp : (Bitmap.new w h v).width = w := rfl
    have hHp : (Bitmap.new w h v).height = h := rfl
    rw [hWp] at hfe hidx
    rw [hWp, hHp] at hflt
    rw [hidx]
    show (List.replicate (w * h % u32Card) v).get?
      (x + y * (w : Int)).toNat = some v
    rw [List.get?_eq_getElem?, Nat.mod_eq_of_lt (lt_trans hwh hucard)]
    have hlt : (x + y * (w : Int)).toNat < w * h := by
      rw [← hfe]; exact hflt
    exact List.getElem?_replicate_of_lt hlt
  · intro hor
    apply index_spec_oob (Bitmap.new w h v) hw hh2 hwh
    rintro ⟨h1, h2, h3, h4⟩
    have hWp : (Bitmap.new w h v).width = w := rfl
    have hHp : (Bitmap.new w h v).height = h := rfl
    rw [hWp] at h2
    rw [hHp] at h4
    rcases hor with h5 | h5 | h5 | h5 <;> omega

/-- Witness for C6 on a concrete 2×3 grid: an in-bounds read returns
the fill value and an out-of-bounds read returns the sentinel. -/
theorem bitmap_new_fill_and_sentinel_witness :
    (Bitmap.new 2 3 (7 : ℤ)).index (1, 2) = some 7 ∧
    (Bitmap.new 2 3 (7 : ℤ)).index (-1, 0) =
      some (Bitmap.new 2 3 (7 : ℤ)).out_of_bounds := by
  constructor
  · exact (bitmap_new_fill_and_sentinel 2 3 (7 : ℤ) 1 2 (by norm_num)
      (by norm_num) (by norm_num [i32Half])).1 (by norm_num)
  · exact (bitmap_new_fill_and_sentinel 2 3 (7 : ℤ) (-1) 0 (by norm_num)
      (by norm_num) (by norm_num [i32Half])).2 (by norm_num)

/-! ## Claim C7 -/

/-- C7, counterexample: the claim fails for a grid `Bitmap::new`
produces without any `u32` overflow.  On the 65536 × 40000 grid the
storage invariant holds and `(0, 39999)` is in-bounds, yet
`set((0, 39999), v)` panics (`none`) instead of succeeding: the index
`0 + 39999 * 65536` overflows the `i32` arithmetic of `flatten_index`,
wraps negative, and the `as usize` cast turns it into an index far past
the end of the vector. -/
theorem bitmap_set_in_bounds_panics :
    (Bitmap.new 65536 40000 (0 : ℤ)).elements.length =
      (Bitmap.new 65536 40000 (0 : ℤ)).width *
        (Bitmap.new 65536 40000 (0 : ℤ)).height ∧
    (Bitmap.new 65536 40000 (0 : ℤ)).is_in_bounds (0, 39999) = true ∧
    (Bitmap.new 65536 40000 (0 : ℤ)).set (0, 39999) 1 = none := by
  have hlen : (Bitmap.new 65536 40000 (0 : ℤ)).elements.length =
      2621440000 := by
    show (List.replicate (65536 * 40000 % u32Card) (0 : ℤ)).length = _
    rw [List.length_replicate]
    norm_num [u32Card]
  have hib : (Bitmap.new 65536 40000 (0 : ℤ)).is_in_bounds (0, 39999) =
      true := by decide
  have hfl : (Bitmap.new 65536 40000 (0 : ℤ)).flatten_index (0, 39999) =
      18446744072035958784 := by decide
  refine ⟨?_, hib, ?_⟩
  · rw [hlen]
    show (2621440000 : ℕ) = 65536 * 40000
    norm_num
  · unfold Bitmap.set
    rw [hib]
    simp only [if_true, hfl, hlen]
    norm_num

/-- C7, amended: for every grid satisfying the storage invariant whose
`width * height` is representable in the `i32` index arithmetic
(`< 2^31`), an in-bounds `set` succeeds and a subsequent `get` at the
same coordinate returns the written value, while an out-of-bounds `set`
returns `OutOfBoundsError` and leaves the grid — every cell, the
dimensions and the sentinel — unchanged. -/
theorem bitmap_set_get {T : Type} (b : Bitmap T) (x y : Int) (v : T)
    (hlen : b.elements.length = b.width * b.height)
    (hw : b.width < u32Card) (hh : b.height < u32Card)
    (hwh : b.width * b.height < i32Half) :
    ((0 ≤ x ∧ x < (b.width : Int) ∧ 0 ≤ y ∧ y < (b.height : Int)) →
      ∃ b' : Bitmap T, b.set (x, y) v = some (.ok (), b') ∧
        b'.index (x, y) = some v) ∧
    (¬(0 ≤ x ∧ x < (b.width : Int) ∧ 0 ≤ y ∧ y < (b.height : Int)) →
      b.set (x, y) v = some (.error ⟨⟩, b)) := by
  constructor
  · rintro ⟨h1, h2, h3, h4⟩
    obtain ⟨hfe, hflt⟩ := flatten_index_eq b hwh h1 h2 h3 h4
    have hib : b.is_in_bounds (x, y) = true :=
      (is_in_bounds_iff b hw hh hwh x y).2 ⟨h1, h2, h3, h4⟩
    have hlt : b.flatten_index (x, y) < b.elements.length := by
      rw [hlen]; exact hflt
    refine ⟨Bitmap.mk (b.elements.set (b.flatten_index (x, y)) v) b.width
      b.height b.out_of_bounds, ?_, ?_⟩
    · unfold Bitmap.set
      rw [hib]
      simp only [if_true]
      rw [if_pos hlt]
    · unfold Bitmap.index
      have hib' : (Bitmap.mk (b.elements.set (b.flatten_index (x, y)) v)
          b.width b.height b.out_of_bounds).is_in_bounds (x, y) = true := hib
      rw [hib']
      simp only [if_true]
      show (b.elements.set (b.flatten_index (x, y)) v).get?
        (b.flatten_index (x, y)) = some v
      rw [List.get?_eq_getElem?]
      exact List.getElem?_set_self hlt
  · intro hno
    have hib : b.is_in_bounds (x, y) = false := by
      rw [← Bool.not_eq_true]
      intro hc
      exact hno ((is_in_bounds_iff b hw hh hwh x y).1 hc)
    unfold Bitmap.set
    rw [hib]
    simp

/-- Witness for C7 on a concrete 2×2 grid: an in-bounds write then read
returns the written value; an out-of-bounds write errors and returns
the unchanged grid. -/
theorem bitmap_set_get_witness :
    (∃ b' : Bitmap ℤ, (Bitmap.new 2 2 (0 : ℤ)).set (1, 0) 9 =
        some (.ok (), b') ∧ b'.index (1, 0) = some 9) ∧
    (Bitmap.new 2 2 (0 : ℤ)).set (5, 0) 9 =
      some (.error ⟨⟩, Bitmap.new 2 2 (0 : ℤ)) := by
  constructor
  · exact (bitmap_set_get (Bitmap.new 2 2 (0 : ℤ)) 1 0 9 (by decide)
      (by decide) (by decide) (by decide)).1 (by decide)
  · exact (bitmap_set_get (Bitmap.new 2 2 (0 : ℤ)) 5 0 9 (by decide)
      (by decide) (by decide) (by decide)).2 (by decide)

/-! ## Parse-loop lemmas -/

theorem lineRun_ok_length {P T : Type} (bp : BitmapParser P T) (y : Nat) :
    ∀ (cs : List Char) (x : Nat) (p : P) (ts : List T) (p' : P),
      lineRun bp y cs x p = .ok (ts, p') → ts.length = cs.length := by
  intro cs
  induction cs with
  | nil =>
    intro x p ts p' h
    simp only [lineRun] at h
    cases h
    rfl
  | cons c cs ih =>
    intro x p ts p' h
    simp only [lineRun] at h
    cases hE : bp.parseElement p (x % u32Card, y % u32Card) c with
    | mk r pnext =>
      rw [hE] at h
      cases r with
      | none => simp at h
      | some t =>
        simp only at h
        cases hL : lineRun bp y cs (x + 1) pnext with
        | error e => rw [hL] at h; simp at h
        | ok tsp =>
          cases tsp with
          | mk ts2 p2 =>
            rw [hL] at h
            cases h
            simp [ih (x + 1) pnext ts2 p' hL]

theorem lineRun_error_shape {P T : Type} (bp : BitmapParser P T) (y : Nat) :
    ∀ (cs : List Char) (x : Nat) (p : P) (e : ParseError),
      lineRun bp y cs x p = .error e → ∃ c, e = .invalidElement c := by
  intro cs
  induction cs with
  | nil => intro x p e h; simp [lineRun] at h
  | cons c cs ih =>
    intro x p e h
    simp only [lineRun] at h
    cases hE : bp.parseElement p (x % u32Card, y % u32Card) c with
    | mk r pnext =>
      rw [hE] at h
      cases r with
      | none =>
        cases h
        exact ⟨c, rfl⟩
      | some t =>
        simp only at h
        cases hL : lineRun bp y cs (x + 1) pnext with
        | error e2 =>
          rw [hL] at h
          cases h
          exact ih (x + 1) pnext _ hL
        | ok tsp => rw [hL] at h; cases tsp; simp at h

theorem lineRun_append {P T : Type} (bp : BitmapParser P T) (y : Nat) :
    ∀ (cs1 cs2 : List Char) (x : Nat) (p : P),
      lineRun bp y (cs1 ++ cs2) x p =
        match lineRun bp y cs1 x p with
        | .error e => .error e
        | .ok (ts, p') =>
          match lineRun bp y cs2 (x + cs1.length) p' with
          | .error e => .error e
          | .ok (ts', p'') => .ok (ts ++ ts', p'') := by
  intro cs1
  induction cs1 with
  | nil =>
    intro cs2 x p
    simp only [List.nil_append, lineRun, List.length_nil, Nat.add_zero]
    cases lineRun bp y cs2 x p with
    | error e => rfl
    | ok tsp => cases tsp; rfl
  | cons c cs1 ih =>
    intro cs2 x p
    simp only [List.cons_append, lineRun]
    cases hE : bp.parseElement p (x % u32Card, y % u32Card) c with
    | mk r pnext =>
      cases r with
      | none => simp only
      | some t =>
        simp only [List.append_eq]
        rw [ih cs2 (x + 1) pnext]
        have hx : x + 1 + cs1.length = x + (c :: cs1).length := by
          simp [List.length_cons]; omega
        rw [hx]
        cases lineRun bp y cs1 (x + 1) pnext with
        | error e => rfl
        | ok tsp =>
          cases tsp with
          | mk ts p2 =>
            simp only
            cases lineRun bp y cs2 (x + (c :: cs1).length) p2 with
            | error e => rfl
            | ok tsp2 => cases tsp2; simp

theorem scanLines_cons_ok {P T : Type} {bp : BitmapParser P T}
    {l : List Char} {ls : List (List Char)} {y : Nat} {p : P}
    {ts : List T} {p' : P}
    (h : scanLines bp (l :: ls) y p = .ok (ts, p')) :
    ∃ ts1 p1 ts2, lineRun bp y l 0 p = .ok (ts1, p1) ∧
      scanLines bp ls (y + 1) p1 = .ok (ts2, p') ∧ ts = ts1 ++ ts2 := by
  simp only [scanLines] at h
  cases hL : lineRun bp y l 0 p with
  | error e => rw [hL] at h; simp at h
  | ok tsp =>
    cases tsp with
    | mk ts1 p1 =>
      rw [hL] at h
      simp only at h
      cases hS : scanLines bp ls (y + 1) p1 with
      | error e => rw [hS] at h; simp at h
      | ok tsp2 =>
        cases tsp2 with
        | mk ts2 p2 =>
          rw [hS] at h
          cases h
          exact ⟨ts1, p1, ts2, rfl, hS, rfl⟩

theorem parseGo_good_lines {P T : Type} (bp : BitmapParser P T) (d : T) :
    ∀ (ls : List (List Char)) (w0 : Nat),
      (∀ l ∈ ls, utf8Len l % u32Card = w0) →
      ∀ (more : List (List Char)) (y h : Nat) (acc : List T) (p : P)
        (ts : List T) (p' : P),
        scanLines bp ls y p = .ok (ts, p') →
        ∃ h', parseGo bp d (ls ++ more) y (some w0) h acc p =
          parseGo bp d more (y + ls.length) (some w0) h' (acc ++ ts) p' := by
  intro ls
  induction ls with
  | nil =>
    intro w0 _ more y h acc p ts p' hscan
    simp only [scanLines] at hscan
    cases hscan
    exact ⟨h, by simp⟩
  | cons l ls ih =>
    intro w0 hall more y h acc p ts p' hscan
    obtain ⟨ts1, p1, ts2, hL, hS, rfl⟩ := scanLines_cons_ok hscan
    have hl : utf8Len l % u32Card = w0 := hall l (List.mem_cons_self _ _)
    simp only [List.cons_append, parseGo]
    rw [if_neg (by simp [hl])]
    rw [hL]
    simp only [List.append_eq]
    rw [hl]
    obtain ⟨h', heq⟩ := ih w0 (fun l2 hm => hall l2 (List.mem_cons_of_mem _ hm))
      more (y + 1) ((h + 1) % u32Card) (acc ++ ts1) p1 ts2 p' hS
    refine ⟨h', ?_⟩
    rw [heq]
    have h1 : y + 1 + ls.length = y + (l :: ls).length := by
      simp [List.length_cons]; omega
    rw [h1, List.append_assoc]

theorem parseGo_no_width_error {P T : Type} (bp : BitmapParser P T) (d : T) :
    ∀ (ls : List (List Char)) (w0 : Nat),
      (∀ l ∈ ls, utf8Len l % u32Card = w0) →
      ∀ (y h : Nat) (acc : List T) (p : P) (w' : Nat) (l' : List Char),
        parseGo bp d ls y (some w0) h acc p ≠ .error (.widthMismatch w' l') := by
  intro ls
  induction ls with
  | nil => intro w0 _ y h acc p w' l'; simp [parseGo]
  | cons l ls ih =>
    intro w0 hall y h acc p w' l' heq
    have hl : utf8Len l % u32Card = w0 := hall l (List.mem_cons_self _ _)
    simp only [parseGo] at heq
    rw [if_neg (by simp [hl])] at heq
    cases hL : lineRun bp y l 0 p with
    | error e =>
      rw [hL] at heq
      simp only at heq
      obtain ⟨c, rfl⟩ := lineRun_error_shape bp y l 0 p e hL
      simp at heq
    | ok tsp =>
      cases tsp with
      | mk ts1 p1 =>
        rw [hL] at heq
        simp only at heq
        rw [hl] at heq
        exact ih w0 (fun l2 hm => hall l2 (List.mem_cons_of_mem _ hm))
          (y + 1) ((h + 1) % u32Card) (acc ++ ts1) p1 w' l' heq

theorem parseGo_ok_facts {P T : Type} (bp : BitmapParser P T) (d : T) :
    ∀ (ls : List (List Char)) (y w0 h : Nat) (acc : List T) (p : P)
      (b : Bitmap T) (p' : P),
      parseGo bp d ls y (some w0) h acc p = .ok (b, p') →
      h + ls.length < u32Card →
      b.width = w0 ∧ b.height = h + ls.length ∧
        b.elements.length = acc.length + (ls.map List.length).sum ∧
        (∀ l ∈ ls, utf8Len l % u32Card = w0) := by
  intro ls
  induction ls with
  | nil =>
    intro y w0 h acc p b p' hok _
    simp only [parseGo] at hok
    cases hok
    exact ⟨rfl, by simp, by simp, by simp⟩
  | cons l ls ih =>
    intro y w0 h acc p b p' hok hbound
    simp only [parseGo] at hok
    by_cases hmw : utf8Len l % u32Card ≠ w0
    · rw [if_pos hmw] at hok; simp at hok
    · push_neg at hmw
      rw [if_neg (by simp [hmw])] at hok
      cases hL : lineRun bp y l 0 p with
      | error e => rw [hL] at hok; simp at hok
      | ok tsp =>
        cases tsp with
        | mk ts1 p1 =>
          rw [hL] at hok
          simp only at hok
          rw [hmw] at hok
          have hmod : (h + 1) % u32Card = h + 1 := by
            apply Nat.mod_eq_of_lt
            simp [List.length_cons] at hbound
            omega
          rw [hmod] at hok
          obtain ⟨hW, hH, hE, hM⟩ := ih (y + 1) w0 (h + 1) (acc ++ ts1) p1
            b p' hok (by simp [List.length_cons] at hbound ⊢; omega)
          refine ⟨hW, ?_, ?_, ?_⟩
          · rw [hH]; simp [List.length_cons]; omega
          · rw [hE, List.length_append,
              lineRun_ok_length bp y l 0 p ts1 p1 hL]
            simp [List.length_cons]
            omega
          · intro l2 hm
            rcases List.mem_cons.1 hm with h2 | h2
            · rw [h2]; exact hmw
            · exact hM l2 h2

/-! ## Claim C4 -/

/-- C4, counterexample: the "invalid element" error does not identify
the offending position.  The same character `'x'` fails at position
`(1,0)` in the first text and at position `(0,0)` in the second, yet
both parses produce the identical error value — the error carries the
character only (the Rust message interpolates just `{c:?}`), so it
cannot identify the position. -/
theorem parse_error_lacks_position :
    Bitmap.parse bpOnlyA () [['a', 'x']] 0 = .error (.invalidElement 'x') ∧
    Bitmap.parse bpOnlyA () [['x', 'a']] 0 = .error (.invalidElement 'x') := by
  constructor <;> rfl

theorem lineRun_fail_head {P T : Type} (bp : BitmapParser P T)
    (y : Nat) (cs1 : List Char) (c : Char) (cs2 : List Char) (p1 : P)
    (ts1 : List T) (p2 : P)
    (hcs1 : lineRun bp y cs1 0 p1 = .ok (ts1, p2))
    (hfail : (bp.parseElement p2 (cs1.length % u32Card, y % u32Card) c).1 =
      none) :
    lineRun bp y (cs1 ++ c :: cs2) 0 p1 = .error (.invalidElement c) := by
  rw [lineRun_append]
  rw [hcs1]
  simp only
  have hx : 0 + cs1.length = cs1.length := by omega
  rw [hx]
  simp only [lineRun]
  cases hE : bp.parseElement p2 (cs1.length % u32Card, y % u32Card) c with
  | mk r q =>
    rw [hE] at hfail
    simp only at hfail
    rw [hfail]

/-- C4, amended: if the mapping function yields no element for the
character `c` at the first failing position in row-major scan order
(every earlier character mapped successfully, and no earlier line
triggers the byte-width check — line widths being UTF-8 byte lengths),
`Bitmap::parse` fails with an "invalid element" error that identifies
the offending character `c` — but not its position (see the
counterexample theorem). -/
theorem parse_invalid_element_identifies_char {P T : Type}
    (bp : BitmapParser P T) (p : P) (d : T) (pre : List (List Char))
    (cs1 : List Char) (c : Char) (cs2 : List Char)
    (rest : List (List Char)) (ts ts1 : List T) (p1 p2 : P)
    (hpre : ∀ l ∈ pre,
      utf8Len l % u32Card = utf8Len (cs1 ++ c :: cs2) % u32Card)
    (hscan : scanLines bp pre 0 p = .ok (ts, p1))
    (hcs1 : lineRun bp pre.length cs1 0 p1 = .ok (ts1, p2))
    (hfail : (bp.parseElement p2
      (cs1.length % u32Card, pre.length % u32Card) c).1 = none) :
    Bitmap.parse bp p (pre ++ (cs1 ++ c :: cs2) :: rest) d =
      .error (.invalidElement c) := by
  have hbadline := lineRun_fail_head bp pre.length cs1 c cs2 p1 ts1 p2
    hcs1 hfail
  cases pre with
  | nil =>
    simp only [scanLines] at hscan
    cases hscan
    simp only [List.nil_append, Bitmap.parse, parseGo]
    simp only [List.length_nil] at hbadline
    rw [hbadline]
  | cons l0 pre' =>
    obtain ⟨u0, q1, u1, hL0, hS, rfl⟩ := scanLines_cons_ok hscan
    simp only [List.cons_append, Bitmap.parse, parseGo]
    rw [hL0]
    simp only [List.append_eq]
    have hmods : ∀ l ∈ pre', utf8Len l % u32Card = utf8Len l0 % u32Card := by
      intro l hm
      rw [hpre l (List.mem_cons_of_mem _ hm),
        ← hpre l0 (List.mem_cons_self _ _)]
    obtain ⟨h', heq⟩ := parseGo_good_lines bp d pre' (utf8Len l0 % u32Card)
      hmods ((cs1 ++ c :: cs2) :: rest) 1 ((0 + 1) % u32Card) ([] ++ u0) q1
      u1 p1 hS
    rw [heq]
    simp only [parseGo]
    rw [if_neg (by
      simp only [ne_eq, not_not]
      rw [hpre l0 (List.mem_cons_self _ _)])]
    have hyy : 1 + pre'.length = (l0 :: pre').length := by
      simp [List.length_cons]; omega
    rw [hyy] at heq ⊢
    rw [hbadline]

/-- Witness for C4's amended theorem at a concrete input: scanning
`"ax"` with the only-`'a'` parser fails on `'x'` at position `(1, 0)`
with the error naming `'x'`. -/
theorem parse_invalid_element_identifies_char_witness :
    Bitmap.parse bpOnlyA () [['a', 'x']] 0 = .error (.invalidElement 'x') :=
  parse_invalid_element_identifies_char bpOnlyA () 0 [] ['a'] 'x' [] []
    [] [0] () () (by simp) (by rfl) (by rfl) (by decide)

/-! ## Claim C5 -/

/-- C5, counterexample: the claim fails in three independent ways.
(1) Preemption: the text `["a", "bb"]` has a second line whose length
differs from the first line's, yet with a mapping function that rejects
the very first character, parsing fails with an "invalid element" error
instead of the claimed width-mismatch error — characters of earlier
lines are mapped before a later line's width is ever checked.
(2) The width the code compares is the UTF-8 **byte** length
(`line.len()`), not the character count: `["ab", "é"]` has differing
character counts (2 vs 1) but equal byte lengths (2 = 2), and parsing
*succeeds* with no error at all.  (3) Conversely `["ab", "éx"]` has
equal character counts (2 = 2) yet triggers the width-mismatch error
the claim says such texts never trigger (byte lengths 2 vs 3). -/
theorem parse_width_error_preempted :
    (Bitmap.parse bpRej () [['a'], ['b', 'b']] 0 =
      .error (.invalidElement 'a') ∧
    Bitmap.parse bpRej () [['a'], ['b', 'b']] 0 ≠
      .error (.widthMismatch 1 ['b', 'b'])) ∧
    Bitmap.parse bpEcho () [['a', 'b'], ['é']] 'z' =
      .ok (Bitmap.mk ['a', 'b', 'é'] 2 2 'z', ()) ∧
    Bitmap.parse bpEcho () [['a', 'b'], ['é', 'x']] 'z' =
      .error (.widthMismatch 2 ['é', 'x']) := by
  have h : Bitmap.parse bpRej () [['a'], ['b', 'b']] 0 =
      .error (.invalidElement 'a') := by rfl
  refine ⟨⟨h, ?_⟩, by rfl, by rfl⟩
  rw [h]
  simp

/-- C5, amended: line "length" is the UTF-8 **byte** length Rust's
`line.len()` reports (the spec's character count only coincides with it
on single-byte text).  Provided the mapping function yields an element
for every character scanned before the mismatching line (and byte
lengths are `u32`-representable), parsing fails with a width-mismatch
error citing the first line whose byte length differs from the first
line's byte length, together with the first line's byte width; and a
text whose lines all share one byte length never produces a
width-mismatch error. -/
theorem parse_width_mismatch_cites_line :
    (∀ (P T : Type) (bp : BitmapParser P T) (p : P) (d : T)
      (first : List Char) (pre : List (List Char)) (bad : List Char)
      (rest : List (List Char)) (ts : List T) (p1 : P),
      utf8Len first < u32Card →
      (∀ l ∈ pre, utf8Len l = utf8Len first) →
      utf8Len bad < u32Card → utf8Len bad ≠ utf8Len first →
      scanLines bp (first :: pre) 0 p = .ok (ts, p1) →
      Bitmap.parse bp p (first :: (pre ++ bad :: rest)) d =
        .error (.widthMismatch (utf8Len first) bad)) ∧
    (∀ (P T : Type) (bp : BitmapParser P T) (p : P) (d : T)
      (text : List (List Char)),
      (∀ l1 ∈ text, ∀ l2 ∈ text, utf8Len l1 = utf8Len l2) →
      ∀ (w' : Nat) (l' : List Char),
        Bitmap.parse bp p text d ≠ .error (.widthMismatch w' l')) := by
  constructor
  · intro P T bp p d first pre bad rest ts p1 hfw hpre hbw hbne hscan
    obtain ⟨ts0, pA, ts1, hL0, hS, rfl⟩ := scanLines_cons_ok hscan
    simp only [Bitmap.parse, parseGo]
    rw [hL0]
    simp only [List.append_eq]
    have hfmod : utf8Len first % u32Card = utf8Len first :=
      Nat.mod_eq_of_lt hfw
    rw [hfmod]
    obtain ⟨h', heq⟩ := parseGo_good_lines bp d pre (utf8Len first)
      (fun l hm => by rw [hpre l hm, hfmod]) (bad :: rest) 1
      ((0 + 1) % u32Card) ([] ++ ts0) pA ts1 p1 hS
    rw [heq]
    simp only [parseGo]
    rw [if_pos (by rw [Nat.mod_eq_of_lt hbw]; exact hbne)]
  · intro P T bp p d text hshare w' l' heq
    cases text with
    | nil => simp [Bitmap.parse, parseGo] at heq
    | cons l0 ls =>
      simp only [Bitmap.parse, parseGo] at heq
      cases hL : lineRun bp 0 l0 0 p with
      | error e =>
        rw [hL] at heq
        simp only at heq
        obtain ⟨c, rfl⟩ := lineRun_error_shape bp 0 l0 0 p e hL
        simp at heq
      | ok tsp =>
        cases tsp with
        | mk ts0 pA =>
          rw [hL] at heq
          simp only at heq
          exact parseGo_no_width_error bp d ls (utf8Len l0 % u32Card)
            (fun l hm => by
              rw [hshare l (List.mem_cons_of_mem _ hm) l0
                (List.mem_cons_self _ _)])
            1 ((0 + 1) % u32Card) ([] ++ ts0) pA w' l' heq

/-- Witness for C5's amended theorem: parsing `["ab", "c"]` with the
accept-everything parser fails with a width mismatch citing width 2 and
the line `"c"`; and it is applied at a same-width text as well. -/
theorem parse_width_mismatch_cites_line_witness :
    Bitmap.parse bpEcho () [['a', 'b'], ['c']] 'z' =
      .error (.widthMismatch 2 ['c']) ∧
    Bitmap.parse bpEcho () [['a', 'b'], ['c', 'd']] 'z' ≠
      .error (.widthMismatch 2 ['c', 'd']) := by
  constructor
  · exact parse_width_mismatch_cites_line.1 Unit Char bpEcho () 'z'
      ['a', 'b'] [] ['c'] [] ['a', 'b'] () (by decide) (by simp)
      (by decide) (by decide) (by rfl)
  · exact parse_width_mismatch_cites_line.2 Unit Char bpEcho () 'z'
      [['a', 'b'], ['c', 'd']] (by decide) 2 ['c', 'd']

/-! ## Claim C3 -/

theorem ascii_utf8Len {l : List Char} (h : ∀ c ∈ l, c.utf8Size = 1) :
    utf8Len l = l.length := by
  induction l with
  | nil => rfl
  | cons c cs ih =>
    show c.utf8Size + utf8Len cs = cs.length + 1
    rw [h c (List.mem_cons_self _ _),
      ih fun x hx => h x (List.mem_cons_of_mem _ hx)]
    omega

theorem sum_const_lengths {ls : List (List Char)} {L : Nat}
    (h : ∀ l ∈ ls, l.length = L) : (ls.map List.length).sum = ls.length * L := by
  induction ls with
  | nil => simp
  | cons l ls ih =>
    show l.length + (ls.map List.length).sum = (ls.length + 1) * L
    rw [h l (List.mem_cons_self _ _),
      ih fun x hx => h x (List.mem_cons_of_mem _ hx)]
    ring

/-- C3, counterexample: the invariant fails in two independent ways.
First, `Bitmap::new(65536, 65536, v)` wraps the `u32` product to 0, so
the backing storage holds 0 elements rather than
`width * height = 2^32`, the coordinate `(0, 0)` is reported in-bounds,
and reading it panics (`none`).  Second, even a *successful* parse can
break the invariant: the width `parse` checks and stores is the UTF-8
byte length of a line while elements are pushed once per character, so
parsing `["é", "ab"]` (both lines 2 bytes) succeeds with
`width = 2, height = 2` but only 3 stored elements. -/
theorem bitmap_new_overflow_breaks_invariant :
    ((Bitmap.new 65536 65536 (0 : ℤ)).elements.length = 0 ∧
    (Bitmap.new 65536 65536 (0 : ℤ)).width *
      (Bitmap.new 65536 65536 (0 : ℤ)).height = 4294967296 ∧
    (Bitmap.new 65536 65536 (0 : ℤ)).is_in_bounds (0, 0) = true ∧
    (Bitmap.new 65536 65536 (0 : ℤ)).index (0, 0) = none) ∧
    (Bitmap.parse bpEcho () [['é'], ['a', 'b']] 'z' =
      .ok (Bitmap.mk ['é', 'a', 'b'] 2 2 'z', ()) ∧
    (Bitmap.mk ['é', 'a', 'b'] 2 2 'z').elements.length ≠
      (Bitmap.mk ['é', 'a', 'b'] 2 2 'z').width *
        (Bitmap.mk ['é', 'a', 'b'] 2 2 'z').height) := by
  refine ⟨⟨?_, by decide, by decide, ?_⟩, by rfl, by decide⟩
  · show (List.replicate (65536 * 65536 % u32Card) (0 : ℤ)).length = 0
    rw [List.length_replicate]
    decide
  · show (if (Bitmap.new 65536 65536 (0 : ℤ)).is_in_bounds (0, 0) then
      (Bitmap.new 65536 65536 (0 : ℤ)).elements.get?
        ((Bitmap.new 65536 65536 (0 : ℤ)).flatten_index (0, 0))
      else some (Bitmap.new 65536 65536 (0 : ℤ)).out_of_bounds) = none
    rw [if_pos (by decide : (Bitmap.new 65536 65536 (0 : ℤ)).is_in_bounds
      (0, 0) = true)]
    show (List.replicate (65536 * 65536 % u32Card) (0 : ℤ)).get?
      ((Bitmap.new 65536 65536 (0 : ℤ)).flatten_index (0, 0)) = none
    rw [show (65536 * 65536 % u32Card) = 0 by decide]
    rfl

/-- C3, amended: the invariant holds within the range of the index
arithmetic, and for parses of single-byte text.  (1) `new` allocates
exactly `width * height` cells whenever the product is below `2^31`
(beyond that the `u32` product can wrap — see the counterexample — or
in-bounds index arithmetic overflows `i32`); (2) every successful
`parse` of `u32`-representable lines consisting of single-byte
characters (so that the byte width `line.len()` checks equals the
per-character element count) yields storage of exactly
`width * height` elements with `height` the line count and `width` the
first line's length — for multi-byte lines a successful parse can
violate the invariant, see the counterexample; (3) for every bitmap
satisfying the storage invariant with `width * height < 2^31`, a
coordinate is in-bounds iff `0 ≤ x < width ∧ 0 ≤ y < height`, and
reading any coordinate never panics: in-bounds reads return the stored
cell at row-major position `x + y * width` and out-of-bounds reads
return the sentinel. -/
theorem bitmap_storage_invariant :
    (∀ (T : Type) (w h : ℕ) (v : T), w * h < i32Half →
      (Bitmap.new w h v).elements.length =
        (Bitmap.new w h v).width * (Bitmap.new w h v).height) ∧
    (∀ (P T : Type) (bp : BitmapParser P T) (p : P)
      (text : List (List Char)) (d : T) (b : Bitmap T) (p' : P),
      (∀ l ∈ text, ∀ c ∈ l, c.utf8Size = 1) →
      (∀ l ∈ text, l.length < u32Card) → text.length < u32Card →
      Bitmap.parse bp p text d = .ok (b, p') →
      b.elements.length = b.width * b.height ∧ b.height = text.length ∧
        b.width = (text.headD []).length) ∧
    (∀ (T : Type) (b : Bitmap T),
      b.elements.length = b.width * b.height → b.width < u32Card →
      b.height < u32Card → b.width * b.height < i32Half →
      ∀ x y : Int,
        (b.is_in_bounds (x, y) = true ↔
          0 ≤ x ∧ x < (b.width : Int) ∧ 0 ≤ y ∧ y < (b.height : Int)) ∧
        b.index (x, y) ≠ none ∧
        ((0 ≤ x ∧ x < (b.width : Int) ∧ 0 ≤ y ∧ y < (b.height : Int)) →
          b.index (x, y) =
            b.elements.get? (x + y * (b.width : Int)).toNat) ∧
        (¬(0 ≤ x ∧ x < (b.width : Int) ∧ 0 ≤ y ∧ y < (b.height : Int)) →
          b.index (x, y) = some b.out_of_bounds)) := by
  refine ⟨?_, ?_, ?_⟩
  · intro T w h v hwh
    show (List.replicate (w * h % u32Card) v).length = w * h
    rw [List.length_replicate,
      Nat.mod_eq_of_lt (lt_trans hwh (by norm_num [i32Half, u32Card]))]
  · intro P T bp p text d b p' hascii hlen htext hok
    cases text with
    | nil =>
      simp only [Bitmap.parse, parseGo] at hok
      cases hok
      refine ⟨by simp, by simp, by simp⟩
    | cons l0 ls =>
      simp only [Bitmap.parse, parseGo] at hok
      cases hL : lineRun bp 0 l0 0 p with
      | error e => rw [hL] at hok; simp at hok
      | ok tsp =>
        cases tsp with
        | mk ts0 pA =>
          rw [hL] at hok
          simp only at hok
          obtain ⟨hW, hH, hE, hM⟩ := parseGo_ok_facts bp d ls (0 + 1)
            (utf8Len l0 % u32Card) ((0 + 1) % u32Card) ([] ++ ts0) pA b p'
            hok
            (by
              simp only [List.length_cons] at htext
              have h01 : (0 + 1) % u32Card = 1 := by norm_num [u32Card]
              rw [h01]
              omega)
          have hl0a : utf8Len l0 = l0.length :=
            ascii_utf8Len (hascii l0 (List.mem_cons_self _ _))
          have hl0 : utf8Len l0 % u32Card = l0.length := by
            rw [hl0a]
            exact Nat.mod_eq_of_lt (hlen l0 (List.mem_cons_self _ _))
          have hts0 : ts0.length = l0.length :=
            lineRun_ok_length bp 0 l0 0 p ts0 pA hL
          have h01 : (0 + 1) % u32Card = 1 := by norm_num [u32Card]
          have heach : ∀ l ∈ ls, l.length = l0.length := by
            intro l hm
            have h1 := hM l hm
            rw [hl0] at h1
            have h2 : utf8Len l = l.length :=
              ascii_utf8Len (hascii l (List.mem_cons_of_mem _ hm))
            rw [h2, Nat.mod_eq_of_lt (hlen l (List.mem_cons_of_mem _ hm))]
              at h1
            exact h1
          refine ⟨?_, ?_, ?_⟩
          · rw [hE, hW, hH, hl0, h01, sum_const_lengths heach]
            simp [hts0, List.length_cons]
            ring
          · rw [hH, h01]
            simp [List.length_cons]
            omega
          · rw [hW, hl0]
            simp [List.headD]
  · intro T b hlen hw hh hwh x y
    refine ⟨is_in_bounds_iff b hw hh hwh x y, ?_, ?_, ?_⟩
    · by_cases hin : 0 ≤ x ∧ x < (b.width : Int) ∧ 0 ≤ y ∧
        y < (b.height : Int)
      · exact (index_spec_in_bounds b hlen hw hh hwh hin.1 hin.2.1
          hin.2.2.1 hin.2.2.2).2
      · rw [index_spec_oob b hw hh hwh hin]
        simp
    · intro hin
      exact (index_spec_in_bounds b hlen hw hh hwh hin.1 hin.2.1
        hin.2.2.1 hin.2.2.2).1
    · exact index_spec_oob b hw hh hwh

/-- Witness for C3's amended theorem: the parse conjunct applied to the
single-line ASCII text `"ab"` (a 2 × 1 grid), and the read-safety
conjunct applied at an in-bounds coordinate of a fresh 2 × 2 grid. -/
theorem bitmap_storage_invariant_witness :
    ((Bitmap.mk ['a', 'b'] 2 1 'z').elements.length =
      (Bitmap.mk ['a', 'b'] 2 1 'z').width *
        (Bitmap.mk ['a', 'b'] 2 1 'z').height ∧
      (Bitmap.mk ['a', 'b'] 2 1 'z').height = 1 ∧
      (Bitmap.mk ['a', 'b'] 2 1 'z').width = 2) ∧
    (Bitmap.new 2 2 (3 : ℤ)).index (0, 1) ≠ none := by
  constructor
  · have h := bitmap_storage_invariant.2.1 Unit Char bpEcho ()
      [['a', 'b']] 'z' (Bitmap.mk ['a', 'b'] 2 1 'z') () (by decide)
      (by decide) (by decide) (by rfl)
    exact ⟨h.1, h.2.1, h.2.2⟩
  · exact (bitmap_storage_invariant.2.2 ℤ (Bitmap.new 2 2 (3 : ℤ))
      (by decide) (by decide) (by decide) (by decide) 0 1).2.1
